import Mathlib

/-!
Verification of the variance-based split-point finder of
`marathon/combineboston.py` (`find_nonqualifier_start` and its inner helpers
`get_variance_differences` and `find_max_variance`).

The embedding models:
  * a pandas DataFrame holding one finish time (`offltime`, a float, modelled
    as a rational) per bib (an integer) as a `List (ℤ × ℚ)` of
    (bib, finish time) records;
  * `df.sort_values(by='bib')` followed by `reset_index` as a stable
    insertion sort by bib, the dense index 0..N-1 being the list position;
  * `df.index.isin(range(a, b))` selection as the positional slice
    `[max a 0, min b N)` (out-of-range labels are silently dropped, exactly
    as `isin` does);
  * `np.var` as population variance, returning `none` on the empty selection
    (NumPy returns NaN there) and the rational value otherwise;
  * the float NaN as `none`, with Python's comparison semantics: every
    `<`/`>`/`==` comparison against NaN is false;
  * `max(list)` + `list.index(...)` as `pyMaxIdxAux` / `pyIndexOfMax`:
    `max` keeps the current value unless the next one is strictly greater,
    and `list.index` returns the first position whose value compares equal
    (falling back to the position the maximum was taken from, which is what
    CPython's identity fast path in `list.index` yields for NaN);
  * Python exceptions as `Except PyErr`: `max([])` raises ValueError,
    `df.loc[p, 'bib']` with an out-of-range label raises KeyError, and
    `range(nan + 500, ...)` on an empty frame raises TypeError.
-/

namespace Marathon

/-- Python exceptions that the embedded code can raise.  `valueError` is
`max()` applied to an empty sequence, `keyError` is a failed `.loc` label
lookup, `typeError` is `range()` applied to the NaN produced by
`df.index.min()` on an empty frame.  `insufficientDataError` is
modelled from the spec: the spec's `InsufficientDataError` for undersized
input; no such error class exists anywhere in the source code, the
constructor exists only so that statements can refer to it. -/
inductive PyErr where
  | valueError
  | keyError
  | typeError
  | insufficientDataError
deriving DecidableEq, Repr

instance : DecidableEq (Except PyErr ℤ) := fun a b =>
  match a, b with
  | .ok x, .ok y =>
    if h : x = y then .isTrue (by rw [h]) else .isFalse (by simp [h])
  | .ok _, .error _ => .isFalse (by simp)
  | .error _, .ok _ => .isFalse (by simp)
  | .error e, .error f =>
    if h : e = f then .isTrue (by rw [h]) else .isFalse (by simp [h])

/-- Population variance (the quantity `np.var` computes on a nonempty
array): mean of the squared deviations from the mean. -/
def rawVariance (l : List ℚ) : ℚ :=
  let n : ℚ := l.length
  let mean : ℚ := l.sum / n
  (l.map (fun x => (x - mean) ^ 2)).sum / n

/-- `np.var` on a selection: NaN (modelled `none`) on the empty selection,
population variance otherwise.  A singleton gives `some 0`. -/
def npVar (l : List ℚ) : Option ℚ :=
  if l.isEmpty then none else some (rawVariance l)

/-- The sub-series selected by `df.index.isin(range(a, b))` on the densely
re-indexed frame: positions `max a 0 ≤ i < min b N`. -/
def window (times : List ℚ) (a b : ℤ) : List ℚ :=
  (times.drop a.toNat).take (b.toNat - a.toNat)

/-- Number of elements of Python's `range(a, b, s)` for a positive step. -/
def intRangeCount (a b s : ℤ) : ℕ :=
  ((b - a).toNat + s.toNat - 1) / s.toNat

/-- Python's `range(a, b, s)` (the code only ever uses positive steps). -/
def intRange (a b s : ℤ) : List ℤ :=
  if 0 < s then (List.range (intRangeCount a b s)).map (fun i : ℕ => a + s * (i : ℤ))
  else []

/-- Python's `x > y` on floats where `none` stands for NaN: any comparison
involving NaN is false. -/
def optGt (x y : Option ℚ) : Bool :=
  match x, y with
  | some a, some b => decide (b < a)
  | _, _ => false

/-- Python's `x == y` on floats where `none` stands for NaN: NaN compares
equal to nothing, not even to itself. -/
def optEq (x y : Option ℚ) : Bool :=
  match x, y with
  | some a, some b => decide (a = b)
  | _, _ => false

/-- The running state of Python's `max(differences)`: current maximum, the
position it was found at, and the position of the next element.  `max`
replaces the current value only when the next compares strictly greater. -/
def pyMaxIdxAux (cur : Option ℚ) (curIdx i : ℕ) :
    List (Option ℚ) → Option ℚ × ℕ
  | [] => (cur, curIdx)
  | x :: xs =>
    if optGt x cur then pyMaxIdxAux x i (i + 1) xs
    else pyMaxIdxAux cur curIdx (i + 1) xs

/-- `differences.index(max(differences))` for a nonempty list: the first
position whose value compares `==` to the maximum, falling back to the
position the maximum came from (CPython's identity fast path, reached only
when the maximum is NaN). -/
def pyIndexOfMax (l : List (Option ℚ)) : ℕ :=
  match l with
  | [] => 0
  | x :: xs =>
    let m := pyMaxIdxAux x 0 1 xs
    match List.findIdx? (fun y => optEq y m.1) l with
    | some i => i
    | none => m.2

/-- The variance window of `find_max_variance`: `2 * bin_size`, but at
least 20. -/
def varWindow (binSize : ℤ) : ℤ :=
  if 2 * binSize < 20 then 20 else 2 * binSize

/-- Inner helper `get_variance_differences(df, runners, interval)`: for each
candidate position, the variance of the `interval` runners after it minus
the variance of the `interval` runners before it.  NaN from an empty
sub-window propagates into the difference. -/
def get_variance_differences (times : List ℚ) (runners : List ℤ)
    (interval : ℤ) : List (Option ℚ) :=
  runners.map (fun runner =>
    match npVar (window times runner (runner + interval)),
          npVar (window times (runner - interval) runner) with
    | some after, some before => some (after - before)
    | _, _ => none)

/-- Inner helper `find_max_variance(df, start_ix, end_ix, bin_size)`:
scan `range(start_ix, end_ix, bin_size)` and return the candidate whose
variance difference is maximal (`max([])` raises ValueError). -/
def find_max_variance (times : List ℚ) (startIx endIx binSize : ℤ) :
    Except PyErr ℤ :=
  let runners := intRange startIx endIx binSize
  let differences := get_variance_differences times runners (varWindow binSize)
  match runners with
  | [] => .error .valueError
  | _ :: _ => .ok (runners.getD (pyIndexOfMax differences) 0)

/-- Insert a record into a list sorted by ascending bib (stable). -/
def insertByBib (r : ℤ × ℚ) : List (ℤ × ℚ) → List (ℤ × ℚ)
  | [] => [r]
  | x :: xs => if r.1 ≤ x.1 then r :: x :: xs else x :: insertByBib r xs

/-- `df.sort_values(by='bib')` followed by `reset_index`: the records in
ascending bib order; the dense index 0..N-1 is the list position. -/
def sortByBib : List (ℤ × ℚ) → List (ℤ × ℚ)
  | [] => []
  | x :: xs => insertByBib x (sortByBib xs)

/-- The three zoom stages of `find_nonqualifier_start` on the bib-sorted
finish-time sequence, returning the final position: a broad scan every 500
runners over `range(min+500, max-500)`, then every 50 bibs in ±100 of the
first result, then every single runner in ±10 of the second result. -/
def selectPosition (times : List ℚ) : Except PyErr ℤ :=
  match find_max_variance times (0 + 500) (((times.length : ℤ) - 1) - 500) 500 with
  | .error e => .error e
  | .ok m1 =>
    match find_max_variance times (m1 - 100) (m1 + 100) 50 with
    | .error e => .error e
    | .ok m2 => find_max_variance times (m2 - 10) (m2 + 10) 1

/-- `find_nonqualifier_start(df)`: sort by bib, re-index densely, run the
three-stage variance scan, and return the bib stored at the winning
position (`sorted_df.loc[p, 'bib']`). -/
def find_nonqualifier_start (records : List (ℤ × ℚ)) : Except PyErr ℤ :=
  if records.isEmpty then .error .typeError
  else
    match selectPosition ((sortByBib records).map Prod.snd) with
    | .error e => .error e
    | .ok p =>
      if 0 ≤ p ∧ p < ((sortByBib records).length : ℤ) then
        .ok ((sortByBib records).getD p.toNat (0, 0)).1
      else .error .keyError

/-! ### The specification-level search (for the refinement claim) -/

/-- The selection the spec describes: the candidate with the maximum score,
the first one in scan order winning ties.  Stated as the first index whose
value equals `foldl max` over the list. -/
def firstArgmax (l : List ℚ) : ℕ :=
  match l with
  | [] => 0
  | x :: xs =>
    match List.findIdx? (fun y => decide (y = xs.foldl max x)) (x :: xs) with
    | some i => i
    | none => 0

/-- The per-candidate scoring function that the spec prescribes: variance of
the `w` finish times from position `p` on, minus variance of the `w` finish
times before position `p` (windows clipped to the sequence). -/
def specScore (times : List ℚ) (w p : ℤ) : ℚ :=
  rawVariance (window times p (p + w)) - rawVariance (window times (p - w) p)

/-- One stage of the search as the spec words it: score every candidate
with `specScore` and select the one with the maximum score, the first in
scan order on ties; no candidates means no result. -/
def specStage (times : List ℚ) (cands : List ℤ) (w : ℤ) : Option ℤ :=
  if cands.isEmpty then none
  else some (cands.getD (firstArgmax (cands.map (specScore times w))) 0)

/-- The three zoom stages as the spec words them: a coarse stage over every
500th interior position with variance window 1000, a medium stage at ±100
of the first result with step 50 and window 100, a fine stage at ±10 of
the second result with step 1 and window 20. -/
def specSelectPosition (times : List ℚ) : Option ℤ :=
  (specStage times (intRange 500 ((times.length : ℤ) - 1 - 500) 500) 1000).bind
    fun m1 =>
      (specStage times (intRange (m1 - 100) (m1 + 100) 50) 100).bind fun m2 =>
        specStage times (intRange (m2 - 10) (m2 + 10) 1) 20

/-- The whole split-point finder as the spec describes it: sort by bib,
re-index densely, run the three coarse-to-fine stages, and return the bib
of the record at the winning position. -/
def splitFinderSpec (records : List (ℤ × ℚ)) : Option ℤ :=
  (specSelectPosition ((sortByBib records).map Prod.snd)).map fun p =>
    ((sortByBib records).getD p.toNat ((0 : ℤ), (0 : ℚ))).1

/-- What `find_max_variance` is claimed to select: a candidate whose
variance delta attains the maximum over all candidates, every candidate
earlier in scan order scoring strictly less (deltas read through
`Option.getD 0`, which is faithful when every delta is defined). -/
def firstMaxSelected (times : List ℚ) (a b s r : ℤ) : Prop :=
  ∃ i : ℕ,
    i < (intRange a b s).length ∧
    r = (intRange a b s).getD i 0 ∧
    (∀ j : ℕ, j < (intRange a b s).length →
      ((get_variance_differences times (intRange a b s) (varWindow s)).map
          (fun o => o.getD 0)).getD j 0 ≤
        ((get_variance_differences times (intRange a b s) (varWindow s)).map
          (fun o => o.getD 0)).getD i 0) ∧
    (∀ j : ℕ, j < i →
      ((get_variance_differences times (intRange a b s) (varWindow s)).map
          (fun o => o.getD 0)).getD j 0 <
        ((get_variance_differences times (intRange a b s) (varWindow s)).map
          (fun o => o.getD 0)).getD i 0)

/-! ### Concrete inputs for the witnesses and counterexamples -/

/-- Synthetic race input: bibs 1..n in ascending order, the runner with
the i-th smallest bib finishing in `f i` minutes. -/
def mkInput (n : ℕ) (f : ℕ → ℚ) : List (ℤ × ℚ) :=
  (List.range n).map (fun i : ℕ => ((i : ℤ) + 1, f i))

/-- The spec's concrete two-population example, with the noise made
explicit and deterministic: sorted positions 0..999 get `180 + eps` where
`eps = (7*i mod 17) - 8` ranges over [-8, 8] (population variance about 24,
so sigma about 4.9); positions 1000..1999 get `240 + eps` where
`eps = (13*i mod 139) - 69` ranges over [-69, 69] (population variance
about 1610, so sigma about 40.1). -/
def c2time (i : ℕ) : ℚ :=
  if i < 1000 then ((172 + (7 * (i : ℤ)) % 17 : ℤ) : ℚ)
  else ((171 + (13 * (i : ℤ)) % 139 : ℤ) : ℚ)

/-- Bibs 1..2000 with the two-population finish times of `c2time`. -/
def c2input : List (ℤ × ℚ) := mkInput 2000 c2time

/-- The bib-sorted finish-time sequence of the two-population example. -/
def c2times : List ℚ := (sortByBib c2input).map Prod.snd

/-- Input with bibs 1..n and a constant finish time: uniform (zero)
finish-time variance throughout. -/
def constInput (n : ℕ) (c : ℚ) : List (ℤ × ℚ) := mkInput n (fun _ => c)

/-! ### Lemmas about the Python max/index pair -/

theorem pyMaxIdxAux_idx (xs : List (Option ℚ)) (cur : Option ℚ) (curIdx i : ℕ) :
    (pyMaxIdxAux cur curIdx i xs).2 = curIdx ∨
      (i ≤ (pyMaxIdxAux cur curIdx i xs).2 ∧
        (pyMaxIdxAux cur curIdx i xs).2 < i + xs.length) := by
  induction xs generalizing cur curIdx i with
  | nil => exact Or.inl rfl
  | cons x xs ih =>
    simp only [pyMaxIdxAux]
    by_cases h : optGt x cur
    · rw [if_pos h]
      rcases ih x i (i + 1) with h' | h' <;>
        [right; right] <;> simp only [List.length_cons] <;> omega
    · rw [if_neg h]
      rcases ih cur curIdx (i + 1) with h' | h' <;>
        [left; right] <;> simp only [List.length_cons] at * <;> omega

theorem pyIndexOfMax_lt_length (l : List (Option ℚ)) (h : l ≠ []) :
    pyIndexOfMax l < l.length := by
  match l with
  | x :: xs =>
    rw [pyIndexOfMax]
    cases hf : List.findIdx? (fun y => optEq y (pyMaxIdxAux x 0 1 xs).1) (x :: xs) with
    | some i =>
      rw [List.findIdx?_eq_some_iff_getElem] at hf
      exact hf.1
    | none =>
      rcases pyMaxIdxAux_idx xs x 0 1 with h' | h' <;>
        simp only [List.length_cons] <;> omega

theorem pyMaxIdxAux_val_some (xs : List ℚ) (c : ℚ) (j i : ℕ) :
    (pyMaxIdxAux (some c) j i (xs.map some)).1 = some (xs.foldl max c) := by
  induction xs generalizing c j i with
  | nil => rfl
  | cons y ys ih =>
    simp only [List.map_cons, pyMaxIdxAux, optGt, List.foldl_cons]
    by_cases h : c < y
    · rw [if_pos (by simpa using h), max_eq_right h.le]
      exact ih y i (i + 1)
    · rw [if_neg (by simpa using h), max_eq_left (not_lt.mp h)]
      exact ih c j (i + 1)

theorem le_foldl_max_init (c : ℚ) (xs : List ℚ) : c ≤ xs.foldl max c := by
  induction xs generalizing c with
  | nil => exact le_refl c
  | cons y ys ih => exact le_trans (le_max_left c y) (ih (max c y))

theorem foldl_max_mem (c : ℚ) (xs : List ℚ) : xs.foldl max c ∈ c :: xs := by
  induction xs generalizing c with
  | nil => simp
  | cons y ys ih =>
    rw [List.foldl_cons]
    rcases List.mem_cons.mp (ih (max c y)) with h | h
    · rcases max_choice c y with h' | h' <;> rw [h] <;> simp [h']
    · simp [List.mem_cons.mpr (Or.inr h)]

theorem le_foldl_max (c : ℚ) (xs : List ℚ) (y : ℚ) (hy : y ∈ c :: xs) :
    y ≤ xs.foldl max c := by
  induction xs generalizing c with
  | nil => simp only [List.mem_singleton] at hy; simp [hy]
  | cons z zs ih =>
    rw [List.foldl_cons]
    rcases List.mem_cons.mp hy with h | h
    · rw [h]; exact le_trans (le_max_left c z) (le_foldl_max_init _ _)
    · rcases List.mem_cons.mp h with h' | h'
      · rw [h']; exact le_trans (le_max_right c z) (le_foldl_max_init _ _)
      · exact ih (max c z) (List.mem_cons.mpr (Or.inr h'))

theorem pyIndexOfMax_map_some (x : ℚ) (xs : List ℚ) :
    pyIndexOfMax ((x :: xs).map some) = firstArgmax (x :: xs) := by
  have hval : (pyMaxIdxAux (some x) 0 1 (xs.map some)).1 = some (xs.foldl max x) :=
    pyMaxIdxAux_val_some xs x 0 1
  have hpred : (fun y => optEq y (pyMaxIdxAux (some x) 0 1 (xs.map some)).1) ∘ some
      = fun y => decide (y = xs.foldl max x) := by
    funext y
    simp [hval, optEq]
  rw [List.map_cons, pyIndexOfMax, firstArgmax, ← List.map_cons, List.findIdx?_map, hpred]
  have hsome : (List.findIdx? (fun y => decide (y = xs.foldl max x)) (x :: xs)).isSome := by
    rw [List.findIdx?_isSome, List.any_eq_true]
    exact ⟨xs.foldl max x, foldl_max_mem x xs, by simp⟩
  cases hf : List.findIdx? (fun y => decide (y = xs.foldl max x)) (x :: xs) with
  | some i => rfl
  | none => rw [hf] at hsome; simp at hsome

theorem firstArgmax_lt_length (x : ℚ) (xs : List ℚ) :
    firstArgmax (x :: xs) < (x :: xs).length := by
  rw [firstArgmax]
  cases hf : List.findIdx? (fun y => decide (y = xs.foldl max x)) (x :: xs) with
  | some i =>
    rw [List.findIdx?_eq_some_iff_getElem] at hf
    exact hf.1
  | none => simp

theorem firstArgmax_spec (x : ℚ) (xs : List ℚ) :
    (x :: xs).getD (firstArgmax (x :: xs)) 0 = xs.foldl max x ∧
      ∀ j, j < firstArgmax (x :: xs) → (x :: xs).getD j 0 ≠ xs.foldl max x := by
  have hsome : (List.findIdx? (fun y => decide (y = xs.foldl max x)) (x :: xs)).isSome := by
    rw [List.findIdx?_isSome, List.any_eq_true]
    exact ⟨xs.foldl max x, foldl_max_mem x xs, by simp⟩
  rw [firstArgmax]
  cases hf : List.findIdx? (fun y => decide (y = xs.foldl max x)) (x :: xs) with
  | some i =>
    rw [List.findIdx?_eq_some_iff_getElem] at hf
    obtain ⟨hi, hpi, hmin⟩ := hf
    constructor
    · rw [List.getD_eq_getElem _ _ hi]
      simpa using hpi
    · intro j hj
      rw [List.getD_eq_getElem _ _ (lt_trans hj hi)]
      simpa using hmin j hj
  | none => rw [hf] at hsome; simp at hsome

/-! ### Lemmas about `intRange` -/

theorem intRange_length (a b s : ℤ) (hs : 0 < s) :
    (intRange a b s).length = intRangeCount a b s := by
  rw [intRange, if_pos hs, List.length_map, List.length_range]

theorem intRange_getD (a b s : ℤ) (hs : 0 < s) (i : ℕ)
    (hi : i < intRangeCount a b s) :
    (intRange a b s).getD i 0 = a + s * i := by
  rw [intRange, if_pos hs, List.getD_eq_getElem?_getD, List.getElem?_map,
    List.getElem?_range hi]
  rfl

theorem intRangeCount_pos (a b s : ℤ) (hs : 0 < s) (hab : a < b) :
    0 < intRangeCount a b s := by
  have hst : 0 < s.toNat := by omega
  have hle : s.toNat ≤ (b - a).toNat + s.toNat - 1 := by omega
  have := (Nat.one_le_div_iff hst).mpr hle
  rw [intRangeCount]
  omega

theorem intRange_ne_nil (a b s : ℤ) (hs : 0 < s) (hab : a < b) :
    intRange a b s ≠ [] := by
  rw [← List.length_pos, intRange_length a b s hs]
  exact intRangeCount_pos a b s hs hab

theorem intRange_upper (a b s : ℤ) (hs : 0 < s) (i : ℕ)
    (hi : i < intRangeCount a b s) : a + s * i ≤ b - 1 := by
  have hst : 0 < s.toNat := by omega
  have hab : a < b := by
    by_contra hc
    have hz : (b - a).toNat = 0 := by omega
    have hcz : intRangeCount a b s = 0 := by
      rw [intRangeCount, hz, Nat.zero_add]
      exact Nat.div_eq_of_lt (by omega)
    omega
  have h1 : (i + 1) * s.toNat ≤ intRangeCount a b s * s.toNat :=
    Nat.mul_le_mul_right _ hi
  have h2 : intRangeCount a b s * s.toNat ≤ (b - a).toNat + s.toNat - 1 :=
    Nat.div_mul_le_self _ _
  have h3 : i * s.toNat + s.toNat ≤ (b - a).toNat + s.toNat - 1 := by
    have : i * s.toNat + s.toNat = (i + 1) * s.toNat := by ring
    rw [this]
    exact le_trans h1 h2
  have h4 : i * s.toNat ≤ (b - a).toNat - 1 := by omega
  have hd1 : 1 ≤ (b - a).toNat := by omega
  have hba : (0 : ℤ) ≤ b - a := by omega
  zify [hd1] at h4
  rw [Int.toNat_of_nonneg hs.le, Int.toNat_of_nonneg hba] at h4
  have h5 : s * (i : ℤ) ≤ b - a - 1 := by rw [mul_comm]; exact h4
  linarith

theorem intRange_mem (a b s x : ℤ) (hs : 0 < s) :
    x ∈ intRange a b s ↔ ∃ i : ℕ, i < intRangeCount a b s ∧ x = a + s * i := by
  rw [intRange, if_pos hs]
  constructor
  · intro hx
    rw [List.mem_map] at hx
    obtain ⟨i, hi, he⟩ := hx
    rw [List.mem_range] at hi
    exact ⟨i, hi, he.symm⟩
  · rintro ⟨i, hi, rfl⟩
    rw [List.mem_map]
    exact ⟨i, List.mem_range.mpr hi, rfl⟩

theorem intRange_bounds (a b s x : ℤ) (hs : 0 < s) (hx : x ∈ intRange a b s) :
    a ≤ x ∧ x ≤ b - 1 := by
  obtain ⟨i, hi, he⟩ := (intRange_mem a b s x hs).mp hx
  have h0 : 0 ≤ s * (i : ℤ) := mul_nonneg hs.le (Int.natCast_nonneg i)
  exact ⟨by omega, he ▸ intRange_upper a b s hs i hi⟩

/-! ### Lemmas about windows and variances -/

theorem npVar_of_ne_nil (l : List ℚ) (h : l ≠ []) :
    npVar l = some (rawVariance l) := by
  have : l.isEmpty = false := by simp [List.isEmpty_iff, h]
  simp [npVar, this]

theorem window_length (times : List ℚ) (a b : ℤ) :
    (window times a b).length =
      min (b.toNat - a.toNat) (times.length - a.toNat) := by
  simp [window, List.length_take, List.length_drop]

theorem window_ne_nil (times : List ℚ) (a b : ℤ)
    (h1 : a.toNat < b.toNat) (h2 : a.toNat < times.length) :
    window times a b ≠ [] := by
  rw [← List.length_pos, window_length]
  omega

theorem window_before_ne_nil (times : List ℚ) (r w : ℤ) (hw : 0 < w)
    (h0 : 0 < r) (hN : r < (times.length : ℤ)) :
    window times (r - w) r ≠ [] := by
  apply window_ne_nil <;> omega

theorem window_after_ne_nil (times : List ℚ) (r w : ℤ) (hw : 0 < w)
    (h0 : 0 < r) (hN : r < (times.length : ℤ)) :
    window times r (r + w) ≠ [] := by
  apply window_ne_nil <;> omega

theorem gvd_length (times : List ℚ) (runners : List ℤ) (interval : ℤ) :
    (get_variance_differences times runners interval).length = runners.length := by
  simp [get_variance_differences]

theorem varWindow_pos (s : ℤ) : 0 < varWindow s := by
  rw [varWindow]; split <;> omega

theorem gvd_eq_map_some (times : List ℚ) (runners : List ℤ) (w : ℤ)
    (hw : 0 < w) (hr : ∀ r ∈ runners, 0 < r ∧ r < (times.length : ℤ)) :
    get_variance_differences times runners w =
      (runners.map (fun r => specScore times w r)).map some := by
  rw [get_variance_differences, List.map_map]
  refine List.map_congr_left ?_
  intro r hrr
  obtain ⟨h0, hN⟩ := hr r hrr
  rw [npVar_of_ne_nil _ (window_after_ne_nil times r w hw h0 hN),
    npVar_of_ne_nil _ (window_before_ne_nil times r w hw h0 hN)]
  rfl

theorem gvd_isSome (times : List ℚ) (runners : List ℤ) (w : ℤ)
    (hw : 0 < w) (hr : ∀ r ∈ runners, 0 < r ∧ r < (times.length : ℤ)) :
    ∀ x ∈ get_variance_differences times runners w, x.isSome := by
  rw [gvd_eq_map_some times runners w hw hr]
  intro x hx
  rw [List.mem_map] at hx
  obtain ⟨q, _, he⟩ := hx
  simp [← he]

/-! ### Lemmas about `find_max_variance` -/

theorem fmv_of_eq_nil (times : List ℚ) (a b s : ℤ) (h : intRange a b s = []) :
    find_max_variance times a b s = .error .valueError := by
  rw [find_max_variance, h]

theorem fmv_of_ne_nil (times : List ℚ) (a b s : ℤ) (h : intRange a b s ≠ []) :
    find_max_variance times a b s =
      .ok ((intRange a b s).getD
        (pyIndexOfMax
          (get_variance_differences times (intRange a b s) (varWindow s))) 0) := by
  rw [find_max_variance]
  rcases hr : intRange a b s with _ | ⟨x, xs⟩
  · exact absurd hr h
  · rfl

theorem fmv_ok (times : List ℚ) (a b s : ℤ) (hs : 0 < s) (hab : a < b) :
    ∃ m : ℤ, find_max_variance times a b s = .ok m ∧
      a ≤ m ∧ m ≤ b - 1 ∧
      ∃ i : ℕ, i < intRangeCount a b s ∧ m = a + s * i := by
  have hne := intRange_ne_nil a b s hs hab
  have hidx : pyIndexOfMax
      (get_variance_differences times (intRange a b s) (varWindow s)) <
      intRangeCount a b s := by
    rw [← intRange_length a b s hs, ← gvd_length times (intRange a b s) (varWindow s)]
    apply pyIndexOfMax_lt_length
    intro hc
    apply hne
    have := gvd_length times (intRange a b s) (varWindow s)
    rw [hc] at this
    exact List.length_eq_zero.mp this.symm
  refine ⟨_, fmv_of_ne_nil times a b s hne, ?_, ?_, _, hidx, ?_⟩
  · rw [intRange_getD a b s hs _ hidx]
    have : (0 : ℤ) ≤ s * (pyIndexOfMax
        (get_variance_differences times (intRange a b s) (varWindow s)) : ℤ) :=
      mul_nonneg hs.le (Int.natCast_nonneg _)
    omega
  · rw [intRange_getD a b s hs _ hidx]
    exact intRange_upper a b s hs _ hidx
  · rw [intRange_getD a b s hs _ hidx]

theorem fmv_ok_bounds (times : List ℚ) (a b s m : ℤ) (hs : 0 < s)
    (hok : find_max_variance times a b s = .ok m) : a ≤ m ∧ m ≤ b - 1 := by
  rcases hr : intRange a b s with _ | ⟨x, xs⟩
  · rw [fmv_of_eq_nil times a b s hr] at hok
    exact absurd hok (by simp)
  · have hab : a < b := by
      by_contra hc
      have hz : intRangeCount a b s = 0 := by
        rw [intRangeCount]
        have : (b - a).toNat = 0 := by omega
        rw [this, Nat.zero_add]
        exact Nat.div_eq_of_lt (by omega)
      have := intRange_length a b s hs
      rw [hr, hz] at this
      simp at this
    obtain ⟨m', hok', hl, hu, _⟩ := fmv_ok times a b s hs hab
    rw [hok] at hok'
    cases hok'
    exact ⟨hl, hu⟩

theorem fmv_toOption_eq_specStage (times : List ℚ) (a b s : ℤ) (hs : 0 < s)
    (hr : ∀ r ∈ intRange a b s, 0 < r ∧ r < (times.length : ℤ)) :
    (find_max_variance times a b s).toOption =
      specStage times (intRange a b s) (varWindow s) := by
  rcases h : intRange a b s with _ | ⟨x, xs⟩
  · rw [fmv_of_eq_nil times a b s h, specStage]
    rfl
  · have hgvd := gvd_eq_map_some times (x :: xs) (varWindow s)
      (varWindow_pos s) (h ▸ hr)
    rw [fmv_of_ne_nil times a b s (by rw [h]; exact List.cons_ne_nil x xs), specStage, h]
    rw [hgvd, List.map_cons, pyIndexOfMax_map_some, ← List.map_cons]
    rfl

/-! ### Lemmas about the sort -/

theorem length_insertByBib (r : ℤ × ℚ) (l : List (ℤ × ℚ)) :
    (insertByBib r l).length = l.length + 1 := by
  induction l with
  | nil => rfl
  | cons x xs ih =>
    rw [insertByBib]
    split
    · rfl
    · rw [List.length_cons, ih, List.length_cons]

theorem length_sortByBib (l : List (ℤ × ℚ)) :
    (sortByBib l).length = l.length := by
  induction l with
  | nil => rfl
  | cons x xs ih => rw [sortByBib, length_insertByBib, ih, List.length_cons]

theorem insertByBib_perm (r : ℤ × ℚ) (l : List (ℤ × ℚ)) :
    (insertByBib r l).Perm (r :: l) := by
  induction l with
  | nil => exact List.Perm.refl _
  | cons x xs ih =>
    rw [insertByBib]
    split
    · exact List.Perm.refl _
    · exact List.Perm.trans (List.Perm.cons x ih) (List.Perm.swap r x xs)

theorem sortByBib_perm (l : List (ℤ × ℚ)) : (sortByBib l).Perm l := by
  induction l with
  | nil => exact List.Perm.refl _
  | cons x xs ih =>
    rw [sortByBib]
    exact List.Perm.trans (insertByBib_perm x (sortByBib xs)) (List.Perm.cons x ih)

/-! ### The three-stage chain on sufficiently long inputs -/

theorem selectPosition_ok (times : List ℚ) (h : 1002 ≤ times.length) :
    ∃ p : ℤ, selectPosition times = .ok p ∧ 390 ≤ p ∧
      p + 443 ≤ (times.length : ℤ) := by
  have hn : (1002 : ℤ) ≤ (times.length : ℤ) := by exact_mod_cast h
  obtain ⟨m1, hm1, hl1, hu1, _⟩ :=
    fmv_ok times (0 + 500) (((times.length : ℤ) - 1) - 500) 500
      (by norm_num) (by omega)
  obtain ⟨m2, hm2, hl2, _, i2, hi2, he2⟩ :=
    fmv_ok times (m1 - 100) (m1 + 100) 50 (by norm_num) (by omega)
  have hu2 : m2 ≤ m1 + 50 := by omega
  obtain ⟨p, hp3, hl3, hu3, _⟩ :=
    fmv_ok times (m2 - 10) (m2 + 10) 1 (by norm_num) (by omega)
  refine ⟨p, ?_, by omega, by omega⟩
  simp only [selectPosition, hm1, hm2]
  exact hp3

theorem find_nonqualifier_ok (records : List (ℤ × ℚ))
    (h : 1002 ≤ records.length) :
    ∃ p : ℤ, selectPosition ((sortByBib records).map Prod.snd) = .ok p ∧
      390 ≤ p ∧ p + 443 ≤ (records.length : ℤ) ∧
      find_nonqualifier_start records =
        .ok ((sortByBib records).getD p.toNat ((0 : ℤ), (0 : ℚ))).1 := by
  have hlen : ((sortByBib records).map Prod.snd).length = records.length := by
    rw [List.length_map, length_sortByBib]
  obtain ⟨p, hp, h390, h443⟩ := selectPosition_ok _ (by rw [hlen]; exact h)
  rw [hlen] at h443
  have hrec : records ≠ [] := by
    intro hc
    rw [hc] at h
    simp at h
  have hne : records.isEmpty = false := by simp [List.isEmpty_iff, hrec]
  refine ⟨p, hp, h390, h443, ?_⟩
  rw [find_nonqualifier_start, if_neg (by rw [hne]; exact Bool.false_ne_true)]
  simp only [hp]
  rw [if_pos]
  refine ⟨by omega, ?_⟩
  rw [length_sortByBib]
  have : (1002 : ℤ) ≤ (records.length : ℤ) := by exact_mod_cast h
  omega

/-! ### Relabeling the bibs (for the algebraic claim) -/

theorem insertByBib_map (φ : ℤ → ℤ) (hφ : StrictMono φ) (r : ℤ × ℚ)
    (l : List (ℤ × ℚ)) :
    insertByBib (φ r.1, r.2) (l.map (fun x => (φ x.1, x.2))) =
      (insertByBib r l).map (fun x => (φ x.1, x.2)) := by
  induction l with
  | nil => rfl
  | cons x xs ih =>
    simp only [List.map_cons, insertByBib]
    by_cases h : r.1 ≤ x.1
    · rw [if_pos (hφ.le_iff_le.mpr h), if_pos h]
      simp
    · rw [if_neg (fun hc => h (hφ.le_iff_le.mp hc)), if_neg h, List.map_cons, ih]

theorem sortByBib_map (φ : ℤ → ℤ) (hφ : StrictMono φ) (l : List (ℤ × ℚ)) :
    sortByBib (l.map (fun x => (φ x.1, x.2))) =
      (sortByBib l).map (fun x => (φ x.1, x.2)) := by
  induction l with
  | nil => rfl
  | cons x xs ih =>
    simp only [List.map_cons, sortByBib, ih]
    exact insertByBib_map φ hφ x (sortByBib xs)

theorem sortByBib_map_snd (φ : ℤ → ℤ) (hφ : StrictMono φ) (l : List (ℤ × ℚ)) :
    (sortByBib (l.map (fun x => (φ x.1, x.2)))).map Prod.snd =
      (sortByBib l).map Prod.snd := by
  rw [sortByBib_map φ hφ l, List.map_map]
  rfl

theorem find_nonqualifier_map (records : List (ℤ × ℚ)) (φ : ℤ → ℤ)
    (hφ : StrictMono φ) :
    find_nonqualifier_start (records.map (fun r => (φ r.1, r.2))) =
      Except.map φ (find_nonqualifier_start records) := by
  by_cases hE : records = []
  · subst hE; rfl
  · have hE' : records.map (fun r => (φ r.1, r.2)) ≠ [] := by
      simpa using hE
    have hne : records.isEmpty = false := by simp [List.isEmpty_iff, hE]
    have hne' : (records.map (fun r => (φ r.1, r.2))).isEmpty = false := by
      simp [List.isEmpty_iff, hE']
    rw [find_nonqualifier_start, find_nonqualifier_start,
      if_neg (by rw [hne']; exact Bool.false_ne_true),
      if_neg (by rw [hne]; exact Bool.false_ne_true)]
    rw [sortByBib_map_snd φ hφ records]
    cases hsel : selectPosition ((sortByBib records).map Prod.snd) with
    | error e => rfl
    | ok p =>
      rw [sortByBib_map φ hφ records]
      simp only [Except.map]
      by_cases hg : 0 ≤ p ∧ p < ((sortByBib records).length : ℤ)
      · have hg' : 0 ≤ p ∧
            p < (((sortByBib records).map (fun x => (φ x.1, x.2))).length : ℤ) := by
          rw [List.length_map]; exact hg
        rw [if_pos hg', if_pos hg]
        have hplt : p.toNat < (sortByBib records).length := by omega
        have hplt' : p.toNat < ((sortByBib records).map (fun x => (φ x.1, x.2))).length := by
          rw [List.length_map]; exact hplt
        rw [List.getD_eq_getElem _ _ hplt', List.getD_eq_getElem _ _ hplt,
          List.getElem_map]
      · have hg' : ¬(0 ≤ p ∧
            p < (((sortByBib records).map (fun x => (φ x.1, x.2))).length : ℤ)) := by
          rw [List.length_map]; exact hg
        rw [if_neg hg', if_neg hg]

/-! ### The finder as the spec words it, end to end -/

theorem intRange_ne_nil_lt (a b s : ℤ) (hs : 0 < s)
    (h : intRange a b s ≠ []) : a < b := by
  rw [← List.length_pos, intRange_length a b s hs, intRangeCount] at h
  have hst : 0 < s.toNat := by omega
  have h2 : s.toNat ≤ (b - a).toNat + s.toNat - 1 := (Nat.one_le_div_iff hst).mp h
  omega

theorem fmv_ok_lt (times : List ℚ) (a b s m : ℤ) (hs : 0 < s)
    (hok : find_max_variance times a b s = .ok m) : a < b := by
  rcases hr : intRange a b s with _ | ⟨x, xs⟩
  · rw [fmv_of_eq_nil times a b s hr] at hok
    exact absurd hok (by simp)
  · exact intRange_ne_nil_lt a b s hs (by rw [hr]; exact List.cons_ne_nil x xs)

theorem selectPosition_toOption_eq_spec (times : List ℚ) :
    (selectPosition times).toOption = specSelectPosition times := by
  have hw2 : varWindow 50 = 100 := by decide
  have hcand1 : ∀ r ∈ intRange (0 + 500) (((times.length : ℤ) - 1) - 500) 500,
      0 < r ∧ r < (times.length : ℤ) := by
    intro r hrm
    have hb := intRange_bounds _ _ _ r (by norm_num) hrm
    omega
  have h1 : (find_max_variance times (0 + 500)
        (((times.length : ℤ) - 1) - 500) 500).toOption
      = specStage times (intRange 500 ((times.length : ℤ) - 1 - 500) 500) 1000 := by
    rw [fmv_toOption_eq_specStage times (0 + 500) (((times.length : ℤ) - 1) - 500)
      500 (by norm_num) hcand1]
    norm_num [varWindow]
  rw [selectPosition, specSelectPosition, ← h1]
  cases hm1 : find_max_variance times (0 + 500) (((times.length : ℤ) - 1) - 500) 500 with
  | error e => rfl
  | ok m1 =>
    have hb1 := fmv_ok_bounds times _ _ _ m1 (by norm_num) hm1
    have hlt1 := fmv_ok_lt times _ _ _ m1 (by norm_num) hm1
    have hcand2 : ∀ r ∈ intRange (m1 - 100) (m1 + 100) 50,
        0 < r ∧ r < (times.length : ℤ) := by
      intro r hrm
      have hb := intRange_bounds _ _ _ r (by norm_num) hrm
      omega
    have h2 : (find_max_variance times (m1 - 100) (m1 + 100) 50).toOption
        = specStage times (intRange (m1 - 100) (m1 + 100) 50) 100 := by
      rw [fmv_toOption_eq_specStage times (m1 - 100) (m1 + 100) 50
        (by norm_num) hcand2, hw2]
    simp only [Except.toOption, Option.some_bind, ← h2]
    cases hm2 : find_max_variance times (m1 - 100) (m1 + 100) 50 with
    | error e => rfl
    | ok m2 =>
      have hb2 := fmv_ok_bounds times _ _ _ m2 (by norm_num) hm2
      have hcand3 : ∀ r ∈ intRange (m2 - 10) (m2 + 10) 1,
          0 < r ∧ r < (times.length : ℤ) := by
        intro r hrm
        have hb := intRange_bounds _ _ _ r (by norm_num) hrm
        omega
      have h3 : (find_max_variance times (m2 - 10) (m2 + 10) 1).toOption
          = specStage times (intRange (m2 - 10) (m2 + 10) 1) 20 := by
        rw [fmv_toOption_eq_specStage times (m2 - 10) (m2 + 10) 1
          (by norm_num) hcand3]
        norm_num [varWindow]
      simp only [Except.toOption, Option.some_bind, ← h3]

theorem selectPosition_ok_bounds (times : List ℚ) (p : ℤ)
    (h : selectPosition times = .ok p) :
    390 ≤ p ∧ p + 394 ≤ (times.length : ℤ) ∧ 1002 ≤ times.length := by
  rw [selectPosition] at h
  cases hm1 : find_max_variance times (0 + 500) (((times.length : ℤ) - 1) - 500) 500 with
  | error e => simp only [hm1] at h; exact absurd h (by simp)
  | ok m1 =>
    simp only [hm1] at h
    have hb1 := fmv_ok_bounds times _ _ _ m1 (by norm_num) hm1
    have hlt1 := fmv_ok_lt times _ _ _ m1 (by norm_num) hm1
    cases hm2 : find_max_variance times (m1 - 100) (m1 + 100) 50 with
    | error e => simp only [hm2] at h; exact absurd h (by simp)
    | ok m2 =>
      simp only [hm2] at h
      have hb2 := fmv_ok_bounds times _ _ _ m2 (by norm_num) hm2
      have hb3 := fmv_ok_bounds times _ _ _ p (by norm_num) h
      have hn : 1002 ≤ (times.length : ℤ) := by omega
      refine ⟨by omega, by omega, by exact_mod_cast hn⟩

theorem find_toOption_eq_spec (records : List (ℤ × ℚ)) :
    (find_nonqualifier_start records).toOption = splitFinderSpec records := by
  by_cases hE : records = []
  · subst hE; rfl
  · have hne : records.isEmpty = false := by simp [List.isEmpty_iff, hE]
    rw [find_nonqualifier_start, if_neg (by rw [hne]; exact Bool.false_ne_true),
      splitFinderSpec, ← selectPosition_toOption_eq_spec]
    cases hsel : selectPosition ((sortByBib records).map Prod.snd) with
    | error e => rfl
    | ok p =>
      obtain ⟨h390, h394, _⟩ := selectPosition_ok_bounds _ p hsel
      rw [List.length_map, length_sortByBib] at h394
      have hg : 0 ≤ p ∧ p < ((sortByBib records).length : ℤ) := by
        rw [length_sortByBib]
        omega
      simp only [Except.toOption, Option.map]
      rw [if_pos hg]

/-! ### Undersized inputs -/

theorem find_small_valueError (records : List (ℤ × ℚ)) (h0 : records ≠ [])
    (h1 : records.length ≤ 1001) :
    find_nonqualifier_start records = .error .valueError := by
  have hne : records.isEmpty = false := by simp [List.isEmpty_iff, h0]
  have hlen : ((sortByBib records).map Prod.snd).length = records.length := by
    rw [List.length_map, length_sortByBib]
  have hle : (records.length : ℤ) ≤ 1001 := by exact_mod_cast h1
  have hc0 : intRangeCount (0 + 500)
      (((((sortByBib records).map Prod.snd).length : ℤ) - 1) - 500) 500 = 0 := by
    rw [intRangeCount]
    have hz : ((((((sortByBib records).map Prod.snd).length : ℤ) - 1) - 500)
        - (0 + 500)).toNat = 0 := by
      rw [hlen]
      omega
    rw [hz]
    decide
  have hnil : intRange (0 + 500)
      (((((sortByBib records).map Prod.snd).length : ℤ) - 1) - 500) 500 = [] :=
    List.length_eq_zero.mp
      (by rw [intRange_length _ _ _ (by norm_num), hc0])
  rw [find_nonqualifier_start, if_neg (by rw [hne]; exact Bool.false_ne_true),
    selectPosition, fmv_of_eq_nil _ _ _ _ hnil]

/-! ### Degenerate windows -/

theorem npVar_singleton (x : ℚ) : npVar [x] = some 0 := by
  rw [npVar]
  norm_num [rawVariance]

/-! ### The selected candidate is the first maximiser -/

theorem all_isSome_eq_map_some (l : List (Option ℚ))
    (h : ∀ x ∈ l, x.isSome) :
    l = (l.map (fun o => o.getD 0)).map some := by
  induction l with
  | nil => rfl
  | cons x xs ih =>
    rcases x with _ | v
    · exact absurd (h none (List.mem_cons_self _ _)) (by simp)
    · simp only [List.map_cons, Option.getD_some]
      congr 1
      exact ih (fun y hy => h y (List.mem_cons_of_mem _ hy))

theorem getD_le_foldl_max (v : ℚ) (vs : List ℚ) (j : ℕ)
    (hj : j < (v :: vs).length) :
    (v :: vs).getD j 0 ≤ vs.foldl max v := by
  apply le_foldl_max
  rw [List.getD_eq_getElem _ _ hj]
  exact List.getElem_mem hj

theorem mkInput_length (n : ℕ) (f : ℕ → ℚ) : (mkInput n f).length = n := by
  rw [mkInput, List.length_map, List.length_range]

/-! ### Claim theorems -/

/-- Claim C4: at every stage, if multiple candidate positions share the
maximum variance delta, the first one encountered in scan order (the
lowest position, since candidates ascend) is selected: whenever
`find_max_variance` succeeds and every delta is defined, the selected
candidate attains the maximum delta and every earlier candidate scores
strictly less. -/
theorem c4_first_max_selected (times : List ℚ) (a b s r : ℤ) (hs : 0 < s)
    (hok : find_max_variance times a b s = .ok r)
    (hdef : ∀ x ∈ get_variance_differences times (intRange a b s)
      (varWindow s), x.isSome) :
    firstMaxSelected times a b s r := by
  rcases hrange : intRange a b s with _ | ⟨c, cs⟩
  · rw [fmv_of_eq_nil times a b s hrange] at hok
    exact absurd hok (by simp)
  · rw [fmv_of_ne_nil times a b s (by rw [hrange]; exact List.cons_ne_nil c cs)]
      at hok
    have hok' := Except.ok.inj hok
    set diffs := get_variance_differences times (intRange a b s) (varWindow s)
      with hdiffs
    set vals := diffs.map (fun o => o.getD 0) with hvals
    have hmap : diffs = vals.map some := all_isSome_eq_map_some diffs hdef
    have hlen : vals.length = (intRange a b s).length := by
      rw [hvals, List.length_map, hdiffs, gvd_length]
    rcases hv : vals with _ | ⟨v, vs⟩
    · rw [hv, hrange] at hlen
      simp at hlen
    · have hidx : pyIndexOfMax diffs = firstArgmax (v :: vs) := by
        rw [hmap, hv, pyIndexOfMax_map_some]
      obtain ⟨hmax, hfirst⟩ := firstArgmax_spec v vs
      have hfa := firstArgmax_lt_length v vs
      unfold firstMaxSelected
      refine ⟨firstArgmax (v :: vs), ?_, ?_, ?_, ?_⟩
      · rw [← hlen, hv]
        exact hfa
      · rw [← hok', hidx]
      · intro j hj
        rw [← hdiffs, ← hvals, hv, hmax]
        exact getD_le_foldl_max v vs j (by rw [← hv, hlen]; exact hj)
      · intro j hj
        rw [← hdiffs, ← hvals, hv, hmax]
        exact lt_of_le_of_ne
          (getD_le_foldl_max v vs j (lt_trans hj hfa)) (hfirst j hj)

/-- Claim C4 witness: constant finish times over 40 runners, candidates 10
and 20 both scoring a zero delta; the first candidate, 10, is selected. -/
theorem c4_witness :
    (0 : ℤ) < 10 ∧
    find_max_variance (List.replicate 40 (5 : ℚ)) 10 30 10 = .ok 10 ∧
    (∀ x ∈ get_variance_differences (List.replicate 40 (5 : ℚ))
      (intRange 10 30 10) (varWindow 10), x.isSome) ∧
    firstMaxSelected (List.replicate 40 (5 : ℚ)) 10 30 10 10 := by
  have h1 : find_max_variance (List.replicate 40 (5 : ℚ)) 10 30 10 = .ok 10 := by
    decide!
  have h2 : ∀ x ∈ get_variance_differences (List.replicate 40 (5 : ℚ))
      (intRange 10 30 10) (varWindow 10), x.isSome := by decide!
  exact ⟨by decide, h1, h2,
    c4_first_max_selected (List.replicate 40 (5 : ℚ)) 10 30 10 10 (by decide) h1 h2⟩

/-- Claim C1: the split-point finder is exactly the three-stage
coarse-to-fine grid search over the bib-sorted, densely re-indexed
sequence: stage 1 scans every 500th position of `range(min+500, max-500)`
with variance window 1000, stage 2 re-centers at ±100 of the stage-1
result with step 50 and window 100, stage 3 re-centers at ±10 of the
stage-2 result with step 1 and window 20 (the floor of 20 dominating
`2*1`); at every stage the score of candidate `p` is the variance on
`[p, p+window)` minus the variance on `[p-window, p)` and the candidate
with the maximum score (first in scan order) is selected.  Stated as:
the embedded finder agrees, on every input, with `splitFinderSpec`, the
staged search written out with the spec's literal candidate ranges,
windows, scores, and first-maximum selection. -/
theorem c1_coarse_to_fine_stages (records : List (ℤ × ℚ)) :
    (find_nonqualifier_start records).toOption = splitFinderSpec records :=
  find_toOption_eq_spec records

/-- Shared evaluation of the finder on the two-population example. -/
theorem c2_eval : find_nonqualifier_start c2input = .ok 494 := by decide!

/-- Claim C2 counterexample: on the spec's own concrete instance (bibs
1..2000, narrow-variance population at sorted positions 0..999 with mean
180 and sigma about 4.9, wide-variance population at positions 1000..1999
with mean 240 and sigma about 40.1), the finder returns bib 494 — far
outside the claimed interval [970, 1030] around the true boundary
K = 1000. -/
theorem c2_counterexample :
    npVar (window c2times 0 1000) = some (6004499 / 250000 : ℚ) ∧
    (6004499 / 250000 : ℚ) ≤ 25 ∧
    npVar (window c2times 1000 2000) = some (1609997271 / 1000000 : ℚ) ∧
    (1500 : ℚ) ≤ 1609997271 / 1000000 ∧
    find_nonqualifier_start c2input = .ok 494 ∧
    ¬((970 : ℤ) ≤ 494 ∧ (494 : ℤ) ≤ 1030) :=
  ⟨by decide!, by decide!, by decide!, by decide!, c2_eval, by decide⟩

/-- Claim C2 (amended): on the concrete two-population instance the finder
does not land near the true boundary: stage 1 prefers position 500 (the
coarse window straddling the boundary sees the between-population mean
shift as extra variance, beating the wide population's own variance), and
the final result is bib 494, inside the stage-1-anchored band [391, 560]. -/
theorem c2_amended_low_result :
    find_nonqualifier_start c2input = .ok 494 ∧
    (391 : ℤ) ≤ 494 ∧ (494 : ℤ) ≤ 560 :=
  ⟨c2_eval, by decide, by decide⟩

/-- Claim C3 counterexample: on an undersized input (600 records) the
finder does fail, but with the ValueError of `max()` on an empty sequence;
no `InsufficientDataError` exists anywhere in the code, and the failure is
not of that kind. -/
theorem c3_counterexample :
    find_nonqualifier_start (mkInput 600 (fun _ => 100)) = .error .valueError ∧
    find_nonqualifier_start (mkInput 600 (fun _ => 100)) ≠
      .error .insufficientDataError := by
  have h : find_nonqualifier_start (mkInput 600 (fun _ => 100)) =
      .error .valueError := by decide!
  exact ⟨h, by rw [h]; decide⟩

/-- Claim C3 (amended): on every nonempty input with at most 1001 records
the stage-1 candidate range `range(500, N-501, 500)` is empty, and the
finder fails — raising the built-in ValueError from `max()` on an empty
sequence, not a custom `InsufficientDataError` — rather than returning a
result. -/
theorem c3_fails_with_valueError (records : List (ℤ × ℚ))
    (h0 : records ≠ []) (h1 : records.length ≤ 1001) :
    find_nonqualifier_start records = .error .valueError :=
  find_small_valueError records h0 h1

/-- Claim C3 witness: three records. -/
theorem c3_witness :
    constInput 3 100 ≠ [] ∧ (constInput 3 100).length ≤ 1001 ∧
    find_nonqualifier_start (constInput 3 100) = .error .valueError := by
  have h0 : constInput 3 100 ≠ [] := by decide
  have h1 : (constInput 3 100).length ≤ 1001 := by decide
  exact ⟨h0, h1, c3_fails_with_valueError (constInput 3 100) h0 h1⟩

/-- Claim C5 counterexample: in `get_variance_differences`, a candidate
whose before-window is empty (runner 0 of a one-record frame, window 20)
gets the undefined NaN delta (modelled `none`), not a defined sentinel
value. -/
theorem c5_counterexample :
    get_variance_differences [(5 : ℚ)] [0] 20 = [none] ∧
    ¬∀ d ∈ get_variance_differences [(5 : ℚ)] [0] 20, d.isSome := by
  have h : get_variance_differences [(5 : ℚ)] [0] 20 = [none] := by decide!
  constructor
  · exact h
  · rw [h]
    decide

/-- Claim C5 (amended): a singleton sub-window has a defined variance of
zero, but an empty sub-window yields NaN (`none`), which propagates into
the delta; the deltas are all defined whenever every candidate lies
strictly inside the sequence and the window is positive — which is the
case for every sub-window the three stages of the finder ever form. -/
theorem c5_degenerate_handling (x : ℚ) (times : List ℚ) (runners : List ℤ)
    (interval : ℤ) (hi : 0 < interval)
    (hr : ∀ r ∈ runners, 0 < r ∧ r < (times.length : ℤ)) :
    npVar [x] = some 0 ∧ npVar [] = none ∧
    ∀ d ∈ get_variance_differences times runners interval, d.isSome :=
  ⟨npVar_singleton x, rfl, gvd_isSome times runners interval hi hr⟩

/-- Claim C5 witness: three records, one interior candidate, window 5. -/
theorem c5_witness :
    (0 : ℤ) < 5 ∧
    (∀ r ∈ ([1] : List ℤ), 0 < r ∧ r < (([(1 : ℚ), 2, 3]).length : ℤ)) ∧
    (npVar [(3 : ℚ)] = some 0 ∧ npVar [] = none ∧
      ∀ d ∈ get_variance_differences [(1 : ℚ), 2, 3] [1] 5, d.isSome) :=
  ⟨by decide, by decide,
    c5_degenerate_handling 3 [(1 : ℚ), 2, 3] [1] 5 (by decide) (by decide)⟩

/-- Claim C6: the split-point finder is deterministic — two runs of the
embedded function on the same input sequence give the same output. -/
theorem c6_deterministic (records : List (ℤ × ℚ)) :
    find_nonqualifier_start records = find_nonqualifier_start records := rfl

/-- Claim C7: on every input large enough for the scan (at least 1002
records — in particular on uniform-variance inputs of that size), the
finder raises no error and the selected position is strictly inside the
scanned interior of the sequence: never the first or last record, and in
fact inside [390, N-443]. -/
theorem c7_no_error_interior (records : List (ℤ × ℚ))
    (h : 1002 ≤ records.length) :
    ∃ p b : ℤ,
      selectPosition ((sortByBib records).map Prod.snd) = .ok p ∧
      find_nonqualifier_start records = .ok b ∧
      0 < p ∧ p < (records.length : ℤ) - 1 ∧
      390 ≤ p ∧ p + 443 ≤ (records.length : ℤ) := by
  obtain ⟨p, hp, h390, h443, hfind⟩ := find_nonqualifier_ok records h
  have hn : (1002 : ℤ) ≤ (records.length : ℤ) := by exact_mod_cast h
  exact ⟨p, _, hp, hfind, by omega, by omega, h390, h443⟩

/-- Claim C7 witness: 1002 records with identical finish times (uniform,
zero variance throughout). -/
theorem c7_witness :
    1002 ≤ (constInput 1002 200).length ∧
    ∃ p b : ℤ,
      selectPosition ((sortByBib (constInput 1002 200)).map Prod.snd) = .ok p ∧
      find_nonqualifier_start (constInput 1002 200) = .ok b ∧
      0 < p ∧ p < ((constInput 1002 200).length : ℤ) - 1 ∧
      390 ≤ p ∧ p + 443 ≤ ((constInput 1002 200).length : ℤ) := by
  have hlen : 1002 ≤ (constInput 1002 200).length := by
    simp [constInput, mkInput_length]
  exact ⟨hlen, c7_no_error_interior (constInput 1002 200) hlen⟩

/-- Claim C8: an input of exactly the minimum size for stage 1 (1002
records, the smallest N making `range(500, N-501, 500)` nonempty) runs all
three stages without any index-out-of-range condition: every window access
clips to the frame as `index.isin` does, the final `.loc` label is in
range, and the finder returns a result. -/
theorem c8_min_size_ok (records : List (ℤ × ℚ))
    (h : records.length = 1002) :
    ∃ b : ℤ, find_nonqualifier_start records = .ok b := by
  obtain ⟨p, hp, h390, h443, hfind⟩ := find_nonqualifier_ok records (by omega)
  exact ⟨_, hfind⟩

/-- Claim C8 witness: exactly 1002 records. -/
theorem c8_witness :
    (constInput 1002 7).length = 1002 ∧
    ∃ b : ℤ, find_nonqualifier_start (constInput 1002 7) = .ok b := by
  have hlen : (constInput 1002 7).length = 1002 := by
    simp [constInput, mkInput_length]
  exact ⟨hlen, c8_min_size_ok (constInput 1002 7) hlen⟩

/-- Claim C9: the finder sorts by ascending bib and re-indexes densely, so
a strictly increasing relabeling of the bib numbers leaves the sorted
sequence (up to relabeling), the finish times in bib-rank order, and hence
the selected position unchanged, and the returned bib is the relabeled bib
at that same position. -/
theorem c9_relabel_invariance (records : List (ℤ × ℚ)) (φ : ℤ → ℤ)
    (hφ : StrictMono φ) :
    sortByBib (records.map (fun r => (φ r.1, r.2))) =
      (sortByBib records).map (fun r => (φ r.1, r.2)) ∧
    selectPosition ((sortByBib (records.map (fun r => (φ r.1, r.2)))).map
        Prod.snd) =
      selectPosition ((sortByBib records).map Prod.snd) ∧
    find_nonqualifier_start (records.map (fun r => (φ r.1, r.2))) =
      Except.map φ (find_nonqualifier_start records) :=
  ⟨sortByBib_map φ hφ records,
    by rw [sortByBib_map_snd φ hφ records],
    find_nonqualifier_map records φ hφ⟩

/-- Claim C9 witness: the relabeling `b ↦ 2*b + 7` on a five-record
input. -/
theorem c9_witness :
    StrictMono (fun b : ℤ => 2 * b + 7) ∧
    find_nonqualifier_start ((constInput 5 50).map
        (fun r => (2 * r.1 + 7, r.2))) =
      Except.map (fun b : ℤ => 2 * b + 7)
        (find_nonqualifier_start (constInput 5 50)) := by
  have hm : StrictMono (fun b : ℤ => 2 * b + 7) := by
    intro a b hab
    show 2 * a + 7 < 2 * b + 7
    omega
  exact ⟨hm, (c9_relabel_invariance (constInput 5 50) _ hm).2.2⟩

/-- Claim C10: on every input large enough for all three stages (at least
1002 records), the returned value is the bib of an actual input record —
the record at the final selected position of the bib-sorted sequence —
and that position is at least 390 positions after the start and at least
443 positions before the end (the position plus 443 is at most N). -/
theorem c10_returns_input_record (records : List (ℤ × ℚ))
    (h : 1002 ≤ records.length) :
    ∃ (p : ℤ) (rec : ℤ × ℚ),
      selectPosition ((sortByBib records).map Prod.snd) = .ok p ∧
      390 ≤ p ∧ p + 443 ≤ (records.length : ℤ) ∧
      rec = (sortByBib records).getD p.toNat ((0 : ℤ), (0 : ℚ)) ∧
      rec ∈ records ∧
      find_nonqualifier_start records = .ok rec.1 := by
  obtain ⟨p, hp, h390, h443, hfind⟩ := find_nonqualifier_ok records h
  have hn : (1002 : ℤ) ≤ (records.length : ℤ) := by exact_mod_cast h
  have hplt : p.toNat < (sortByBib records).length := by
    rw [length_sortByBib]
    omega
  refine ⟨p, _, hp, h390, h443, rfl, ?_, hfind⟩
  rw [List.getD_eq_getElem _ _ hplt]
  exact (sortByBib_perm records).subset (List.getElem_mem hplt)

/-- Claim C10 witness: 1100 records with identical finish times. -/
theorem c10_witness :
    1002 ≤ (constInput 1100 3).length ∧
    ∃ (p : ℤ) (rec : ℤ × ℚ),
      selectPosition ((sortByBib (constInput 1100 3)).map Prod.snd) = .ok p ∧
      390 ≤ p ∧ p + 443 ≤ ((constInput 1100 3).length : ℤ) ∧
      rec = (sortByBib (constInput 1100 3)).getD p.toNat ((0 : ℤ), (0 : ℚ)) ∧
      rec ∈ constInput 1100 3 ∧
      find_nonqualifier_start (constInput 1100 3) = .ok rec.1 := by
  have hlen : 1002 ≤ (constInput 1100 3).length := by
    simp [constInput, mkInput_length]
  exact ⟨hlen, c10_returns_input_record (constInput 1100 3) hlen⟩

end Marathon
